import Mathlib

/-!
Verification of the Quantum-Qiskit-Computing repository.

The repository contains three small Python scripts.  The claims under
verification concern two of them:

* src/src/algorithms/quantum_text_encoding.py : a chunked text-to-bits
  codec that routes each chunk through a simulated quantum circuit
  (prepare each qubit with an X gate when the corresponding bit is 1,
  measure all qubits with a single shot, read the counts key back).
* src/src/algorithms/quantum_sort.py : a bubble sort whose comparison is
  a one-qubit circuit that applies an X gate exactly when a > b and then
  measures.

The shallow embedding below follows the Python source line by line.
Text (Python str) is modelled as a list of natural-number code points;
bit strings (Python str of the characters 0 and 1) as lists of Char.
The external Aer qasm simulator is not part of the repository; it is
modelled from the contract stated in the spec (section 6): a single shot
of a gate-free-except-X circuit deterministically measures each prepared
qubit, and the counts key renders the classical register with bit
c[n-1] leftmost, i.e. in reverse of qubit order.
-/

namespace QuantumRepo

/-- Minimal big-endian binary digits of a natural number; empty for 0.
This is the digit string Python produces for positive n inside
format(n, "08b") before zero padding. -/
def natBits (n : Nat) : List Bool :=
  if n = 0 then [] else natBits (n / 2) ++ [n % 2 == 1]
termination_by n
decreasing_by exact Nat.div_lt_self (Nat.pos_of_ne_zero (by assumption)) one_lt_two

/-- Render a bit as the character 0 or 1. -/
def bitChar (b : Bool) : Char := if b then '1' else '0'

/-- Python format(n, "08b"): the binary representation of n (the single
digit 0 when n = 0), left padded with zeros to a width of at least 8.
Wider numbers keep all their digits; nothing is truncated. -/
def format08b (n : Nat) : List Char :=
  let base := if n = 0 then [false] else natBits n
  (List.replicate (8 - base.length) false ++ base).map bitChar

/-- text_to_binary from quantum_text_encoding.py: concatenate
format(ord(char), "08b") over the characters of the text. -/
def text_to_binary (text : List Nat) : List Char :=
  (text.map format08b).flatten

/-- One character of Python int(s, 2): the digit value of a binary digit
character, none for any other character. -/
def binDigit (c : Char) : Option Nat :=
  if c = '0' then some 0 else if c = '1' then some 1 else none

/-- Python int(s, 2) on a string free of whitespace, sign and underscore
characters (the only strings the codec ever parses): the big-endian
value of the digits, none (a ValueError) when the string is empty or
contains a character that is not a binary digit. -/
def intBase2 (s : List Char) : Option Nat :=
  if s.isEmpty then none
  else s.foldlM (fun acc c => (binDigit c).map (fun d => 2 * acc + d)) 0

/-- binary_to_text from quantum_text_encoding.py: for i in
range(0, len(binary), 8) take the slice binary[i:i+8], parse it with
int(byte, 2) and append chr of the value.  The final slice may be
shorter than 8; it is parsed like any other.  A parse failure (a
ValueError escaping the loop) is modelled as none. -/
def binary_to_text (binary : List Char) : Option (List Nat) :=
  if binary.isEmpty then some []
  else do
    let n ← intBase2 (binary.take 8)
    let rest ← binary_to_text (binary.drop 8)
    pure (n :: rest)
termination_by binary.length
decreasing_by
  simp only [List.length_drop]
  have hlen : 0 < binary.length := by
    cases binary with
    | nil => simp [List.isEmpty] at *
    | cons a l => simp
  omega

/-- A circuit as the scripts build one: n qubits, a list of X gates (one
per listed qubit index, applied in list order to the all-zero initial
state), then a measurement of every qubit into the classical register of
the same size.  No other gate ever occurs in the repository. -/
structure QCircuit where
  nQubits : Nat
  xGates : List Nat
deriving Repr, DecidableEq

/-- Apply an X gate at index i: flip that qubit of a basis state.  An
index outside the register leaves the state unchanged (the scripts never
produce one). -/
def applyX (st : List Bool) (i : Nat) : List Bool :=
  st.set i (!(st.getD i false))

/-- The basis state a gate-free-except-X circuit prepares: start from
all zeros and apply each X gate in order. -/
def runCircuit (qc : QCircuit) : List Bool :=
  qc.xGates.foldl applyX (List.replicate qc.nQubits false)

/-- Modelled from the spec: the external Aer qasm simulator
(CircuitExecutor, spec section 6) on a single shot.  The prepared state
is a basis state, so the measurement is deterministic, and the counts
key renders the classical register with bit c[n-1] leftmost, i.e. the
qubit values in reverse order. -/
def executeShot (qc : QCircuit) : List Char :=
  ((runCircuit qc).reverse).map bitChar

/-- The gate-construction loop of process_chunk: for i, bit in
enumerate(binary_chunk), record an X gate at index i when bit is 1.
The first argument is the running enumeration index. -/
def buildGates : Nat → List Char → List Nat
  | _, [] => []
  | i, c :: rest =>
      if c = '1' then i :: buildGates (i + 1) rest else buildGates (i + 1) rest

/-- process_chunk from quantum_text_encoding.py: encode the chunk as
bits, build the circuit that X-flips every 1 bit and measures, execute
one shot, and return the measured key reversed together with the
circuit. -/
def process_chunk (chunk : List Nat) : List Char × QCircuit :=
  let binary_chunk := text_to_binary chunk
  let qc : QCircuit := ⟨binary_chunk.length, buildGates 0 binary_chunk⟩
  let measured := executeShot qc
  (measured.reverse, qc)

/-- process_message_chunks from quantum_text_encoding.py: for i in
range(0, len(message), chunk_size) process the slice
message[i:i+chunk_size], concatenating the measured bit strings and
collecting the circuits.  Python range with step 0 raises ValueError;
chunk_size = 0 is outside the source's domain and modelled as an empty
result. -/
def process_message_chunks (message : List Nat) (chunk_size : Nat) :
    List Char × List QCircuit :=
  if h : message.isEmpty ∨ chunk_size = 0 then ([], [])
  else
    let step := process_chunk (message.take chunk_size)
    let rest := process_message_chunks (message.drop chunk_size) chunk_size
    (step.1 ++ rest.1, step.2 :: rest.2)
termination_by message.length
decreasing_by
  simp only [List.length_drop]
  rcases message with _ | ⟨a, l⟩
  · simp [List.isEmpty] at h
  · have : chunk_size ≠ 0 := by tauto
    simp only [List.length_cons]
    omega

/-- quantum_text_encoding from quantum_text_encoding.py, stripped of the
print statements: process the chunks and decode the concatenated bit
string.  The decoded message is returned.  The source gives chunk_size
the default value 3; here it is always passed explicitly. -/
def quantum_text_encoding (message : List Nat) (chunk_size : Nat) :
    Option (List Nat) :=
  binary_to_text (process_message_chunks message chunk_size).1

/-- quantum_compare from quantum_sort.py: build a one-qubit circuit,
apply an X gate exactly when a > b, measure one shot, and return whether
the counts key is the string 1. -/
def quantum_compare (a b : Int) : Bool :=
  let qc : QCircuit := ⟨1, if a > b then [0] else []⟩
  executeShot qc == ['1']

/-- The body of the inner loop of quantum_bubble_sort: compare the
elements at j and j + 1 with quantum_compare and swap them when it
returns true.  Python reads both elements before the tuple assignment,
so the swap uses the original values. -/
def cmpSwap (l : List Int) (j : Nat) : List Int :=
  if quantum_compare (l.getD j 0) (l.getD (j + 1) 0) then
    (l.set j (l.getD (j + 1) 0)).set (j + 1) (l.getD j 0)
  else l

/-- quantum_bubble_sort from quantum_sort.py: copy the input, then for i
in range(n), for j in range(0, n - i - 1), conditionally swap positions
j and j + 1.  The copy makes the argument list itself unmodified; the
pure embedding returns the sorted copy. -/
def quantum_bubble_sort (arr : List Int) : List Int :=
  let n := arr.length
  (List.range n).foldl
    (fun l i => (List.range (n - i - 1)).foldl cmpSwap l) arr

/-- The numeric value of big-endian bits, the reference for int(s, 2). -/
def bitsVal (l : List Bool) : Nat :=
  l.foldl (fun a b => 2 * a + (if b then 1 else 0)) 0

/-- A bounded bubble pass in recursive form: compare-and-swap the
adjacent pairs at positions (0,1) through (m-1,m), leaving the rest of
the list untouched.  This is the list-structural counterpart of the
inner index loop of quantum_bubble_sort; the two are proved equal
below. -/
def bpassB : Nat → List Int → List Int
  | 0, l => l
  | _, [] => []
  | _ + 1, [a] => [a]
  | m + 1, a :: b :: t => if a > b then b :: bpassB m (a :: t) else a :: bpassB m (b :: t)

/-- The state of quantum_bubble_sort after the first k iterations of its
outer loop, starting from the copied input list. -/
def bubbleIter (arr : List Int) (k : Nat) : List Int :=
  (List.range k).foldl
    (fun l i => (List.range (arr.length - i - 1)).foldl cmpSwap l) arr

/-! ### Helper lemmas on the bit-level codec -/

theorem foldl_bits_go (l : List Bool) (a : Nat) :
    l.foldl (fun a b => 2 * a + (if b then 1 else 0)) a =
      a * 2 ^ l.length + l.foldl (fun a b => 2 * a + (if b then 1 else 0)) 0 := by
  induction l generalizing a with
  | nil => simp
  | cons b t ih =>
    rw [List.foldl_cons, List.foldl_cons]
    rw [ih (2 * a + (if b then 1 else 0)), ih (2 * 0 + (if b then 1 else 0))]
    simp only [List.length_cons]
    ring

theorem bitsVal_append (xs ys : List Bool) :
    bitsVal (xs ++ ys) = bitsVal xs * 2 ^ ys.length + bitsVal ys := by
  simp only [bitsVal, List.foldl_append]
  rw [foldl_bits_go]

theorem bitsVal_replicate_false (k : Nat) (xs : List Bool) :
    bitsVal (List.replicate k false ++ xs) = bitsVal xs := by
  rw [bitsVal_append]
  have : bitsVal (List.replicate k false) = 0 := by
    induction k with
    | zero => simp [bitsVal]
    | succ m ih =>
      simp only [List.replicate_succ, bitsVal, List.foldl_cons] at *
      simpa using ih
  simp [this]

theorem bitsVal_natBits (n : Nat) : bitsVal (natBits n) = n := by
  induction n using Nat.strong_induction_on with
  | _ n ih =>
    rw [natBits]
    by_cases h : n = 0
    · simp [h, bitsVal]
    · rw [if_neg h, bitsVal_append]
      have hlt : n / 2 < n := Nat.div_lt_self (Nat.pos_of_ne_zero h) one_lt_two
      rw [ih _ hlt]
      have hsingle : bitsVal [n % 2 == 1] = n % 2 := by
        rcases Nat.mod_two_eq_zero_or_one n with h2 | h2 <;> simp [bitsVal, h2]
      rw [hsingle]
      simp only [List.length_singleton, pow_one]
      omega

theorem natBits_length_le {k n : Nat} (h : n < 2 ^ k) : (natBits n).length ≤ k := by
  induction k generalizing n with
  | zero =>
    interval_cases n
    simp [natBits]
  | succ m ih =>
    rw [natBits]
    by_cases h0 : n = 0
    · simp [h0]
    · rw [if_neg h0]
      have : n / 2 < 2 ^ m := by
        rw [Nat.div_lt_iff_lt_mul two_pos]
        calc n < 2 ^ (m + 1) := h
        _ = 2 ^ m * 2 := by ring
      simpa using ih this

theorem natBits_length_gt {k n : Nat} (h : 2 ^ k ≤ n) : k < (natBits n).length := by
  induction k generalizing n with
  | zero =>
    rw [natBits, if_neg (by omega)]
    simp
  | succ m ih =>
    have h2 : 2 ^ m ≤ n / 2 := by
      rw [Nat.le_div_iff_mul_le two_pos]
      calc 2 ^ m * 2 = 2 ^ (m + 1) := by ring
      _ ≤ n := h
    have hn : n ≠ 0 := by
      have h1 : 0 < 2 ^ (m + 1) := by positivity
      omega
    rw [natBits, if_neg hn]
    simpa using ih h2

theorem format08b_length {n : Nat} (h : n < 256) : (format08b n).length = 8 := by
  unfold format08b
  by_cases h0 : n = 0
  · simp [h0]
  · have hle : (natBits n).length ≤ 8 := natBits_length_le (k := 8) (by omega)
    have hpos : 0 < (natBits n).length := by
      have : 2 ^ 0 ≤ n := by omega
      simpa using natBits_length_gt this
    simp only [h0, if_false, List.length_map, List.length_append,
      List.length_replicate]
    omega

theorem format08b_length_gt {n : Nat} (h : 256 ≤ n) : 8 < (format08b n).length := by
  unfold format08b
  have h0 : n ≠ 0 := by omega
  have : 8 < (natBits n).length := natBits_length_gt (k := 8) (by omega)
  simp only [h0, if_false, List.length_map, List.length_append,
    List.length_replicate]
  omega

theorem bitChar_eq_or (b : Bool) : bitChar b = '0' ∨ bitChar b = '1' := by
  cases b <;> simp [bitChar]

theorem format08b_mem_bits {n : Nat} {c : Char} (h : c ∈ format08b n) :
    c = '0' ∨ c = '1' := by
  unfold format08b at h
  rcases List.mem_map.mp h with ⟨b, _, rfl⟩
  exact bitChar_eq_or b

theorem text_to_binary_mem_bits {text : List Nat} {c : Char}
    (h : c ∈ text_to_binary text) : c = '0' ∨ c = '1' := by
  unfold text_to_binary at h
  rcases List.mem_flatten.mp h with ⟨l, hl, hc⟩
  rcases List.mem_map.mp hl with ⟨m, _, rfl⟩
  exact format08b_mem_bits hc

theorem binDigit_bitChar (b : Bool) :
    binDigit (bitChar b) = some (if b then 1 else 0) := by
  cases b <;> simp [binDigit, bitChar]

theorem intBase2_map_bitChar (bools : List Bool) (a : Nat) :
    (bools.map bitChar).foldlM
        (fun acc c => (binDigit c).map (fun d => 2 * acc + d)) a =
      some (bools.foldl (fun acc b => 2 * acc + (if b then 1 else 0)) a) := by
  induction bools generalizing a with
  | nil => rfl
  | cons b t ih =>
    simp only [List.map_cons, List.foldlM_cons, binDigit_bitChar, Option.map_some,
      Option.bind_eq_bind, Option.some_bind, List.foldl_cons]
    exact ih _

theorem intBase2_bitChars {bools : List Bool} (h : bools ≠ []) :
    intBase2 (bools.map bitChar) = some (bitsVal bools) := by
  unfold intBase2 bitsVal
  rw [if_neg (by simpa using h)]
  exact intBase2_map_bitChar bools 0

theorem format08b_as_map (n : Nat) :
    format08b n =
      (List.replicate (8 - (if n = 0 then [false] else natBits n).length) false ++
        (if n = 0 then [false] else natBits n)).map bitChar := rfl

theorem intBase2_format08b (n : Nat) : intBase2 (format08b n) = some n := by
  rw [format08b_as_map]
  set base := if n = 0 then [false] else natBits n with hbase
  have hne : List.replicate (8 - base.length) false ++ base ≠ [] := by
    by_cases h0 : n = 0
    · simp [hbase, h0]
    · have : 0 < (natBits n).length := by
        have : 2 ^ 0 ≤ n := by omega
        simpa using natBits_length_gt this
      simp only [hbase, h0, if_false]
      intro hcontra
      rcases List.append_eq_nil.mp hcontra with ⟨_, h2⟩
      simp [h2] at this
  rw [intBase2_bitChars hne, bitsVal_replicate_false]
  by_cases h0 : n = 0
  · simp [hbase, h0, bitsVal]
  · simp [hbase, h0, bitsVal_natBits]

theorem text_to_binary_nil : text_to_binary [] = [] := rfl

theorem text_to_binary_cons (c : Nat) (rest : List Nat) :
    text_to_binary (c :: rest) = format08b c ++ text_to_binary rest := by
  simp [text_to_binary]

theorem text_to_binary_append (xs ys : List Nat) :
    text_to_binary (xs ++ ys) = text_to_binary xs ++ text_to_binary ys := by
  simp [text_to_binary]

theorem binary_to_text_nil : binary_to_text [] = some [] := by
  rw [binary_to_text]
  simp

theorem binary_to_text_append8 {b : List Char} (rest : List Char) {m : Nat}
    (hb : b.length = 8) (hm : intBase2 b = some m) :
    binary_to_text (b ++ rest) = (binary_to_text rest).map (m :: ·) := by
  rw [binary_to_text]
  have hne : (b ++ rest).isEmpty = false := by
    cases b with
    | nil => simp at hb
    | cons x xs => simp
  rw [if_neg (by simp [hne])]
  rw [List.take_left' hb, List.drop_left' hb, hm]
  cases binary_to_text rest <;> simp

theorem decode_encode {text : List Nat} (h : ∀ c ∈ text, c < 256) :
    binary_to_text (text_to_binary text) = some text := by
  induction text with
  | nil => simpa [text_to_binary_nil] using binary_to_text_nil
  | cons c rest ih =>
    have hc : c < 256 := h c (by simp)
    have hrest : ∀ x ∈ rest, x < 256 := fun x hx => h x (by simp [hx])
    rw [text_to_binary_cons,
      binary_to_text_append8 _ (format08b_length hc) (intBase2_format08b c),
      ih hrest]
    rfl

theorem map_bitChar_beq {s : List Char} (h : ∀ c ∈ s, c = '0' ∨ c = '1') :
    s.map (fun c => bitChar (c == '1')) = s := by
  induction s with
  | nil => rfl
  | cons c rest ih =>
    have hc := h c (by simp)
    have hrest : ∀ x ∈ rest, x = '0' ∨ x = '1' := fun x hx => h x (by simp [hx])
    rw [List.map_cons, ih hrest]
    rcases hc with hc | hc <;> simp [hc, bitChar]

theorem intBase2_of_bits {s : List Char} (hne : s ≠ [])
    (h : ∀ c ∈ s, c = '0' ∨ c = '1') :
    intBase2 s = some (bitsVal (s.map (· == '1'))) := by
  have hmap : (s.map (· == '1')).map bitChar = s := by
    rw [List.map_map]
    exact map_bitChar_beq h
  have hne2 : s.map (· == '1') ≠ [] := by
    simpa using hne
  rw [← hmap, intBase2_bitChars hne2]
  rw [hmap]

theorem binary_to_text_of_bits {l : List Char}
    (h : ∀ c ∈ l, c = '0' ∨ c = '1') :
    ∃ t, binary_to_text l = some t ∧ t.length = (l.length + 7) / 8 := by
  suffices H : ∀ n (l : List Char), l.length = n → (∀ c ∈ l, c = '0' ∨ c = '1') →
      ∃ t, binary_to_text l = some t ∧ t.length = (l.length + 7) / 8 by
    exact H l.length l rfl h
  clear h l
  intro n
  induction n using Nat.strong_induction_on with
  | _ n ih =>
    intro l hn h
    by_cases hemp : l = []
    · subst hemp
      exact ⟨[], binary_to_text_nil, by simp⟩
    · have hlpos : 0 < l.length := List.length_pos.mpr hemp
      have htne : l.take 8 ≠ [] := by
        simp [List.take_eq_nil_iff, hemp]
      have htbits : ∀ c ∈ l.take 8, c = '0' ∨ c = '1' :=
        fun c hc => h c (List.mem_of_mem_take hc)
      have hdbits : ∀ c ∈ l.drop 8, c = '0' ∨ c = '1' :=
        fun c hc => h c (List.mem_of_mem_drop hc)
      have hdlt : (l.drop 8).length < n := by
        simp only [List.length_drop]
        omega
      obtain ⟨t, ht, htlen⟩ := ih _ hdlt (l.drop 8) rfl hdbits
      refine ⟨bitsVal ((l.take 8).map (· == '1')) :: t, ?_, ?_⟩
      · rw [binary_to_text, if_neg (by simp [hemp]), intBase2_of_bits htne htbits, ht]
        rfl
      · simp only [List.length_cons, htlen, List.length_drop]
        omega

theorem binary_to_text_last {l : List Char}
    (h : ∀ c ∈ l, c = '0' ∨ c = '1') (hlen : l.length % 8 ≠ 0) :
    ∃ t, binary_to_text l = some t ∧ t.length = l.length / 8 + 1 ∧
      t.getLast? =
        some (bitsVal ((l.drop (8 * (l.length / 8))).map (· == '1'))) := by
  suffices H : ∀ n (l : List Char), l.length = n →
      (∀ c ∈ l, c = '0' ∨ c = '1') → l.length % 8 ≠ 0 →
      ∃ t, binary_to_text l = some t ∧ t.length = l.length / 8 + 1 ∧
        t.getLast? =
          some (bitsVal ((l.drop (8 * (l.length / 8))).map (· == '1'))) by
    exact H l.length l rfl h hlen
  clear h hlen l
  intro n
  induction n using Nat.strong_induction_on with
  | _ n ih =>
    intro l hn h hlen
    have hemp : l ≠ [] := by
      intro h0
      subst h0
      simp at hlen
    have hlpos : 0 < l.length := List.length_pos.mpr hemp
    have htne : l.take 8 ≠ [] := by
      simp [List.take_eq_nil_iff, hemp]
    have htbits : ∀ c ∈ l.take 8, c = '0' ∨ c = '1' :=
      fun c hc => h c (List.mem_of_mem_take hc)
    by_cases hsmall : l.length < 8
    · have hdropnil : l.drop 8 = [] := List.drop_eq_nil_of_le (by omega)
      have htake : l.take 8 = l := List.take_of_length_le (by omega)
      have hdiv : l.length / 8 = 0 := Nat.div_eq_of_lt hsmall
      refine ⟨[bitsVal (l.map (· == '1'))], ?_, ?_, ?_⟩
      · rw [binary_to_text, if_neg (by simp [hemp]), intBase2_of_bits htne htbits,
          hdropnil, binary_to_text_nil, htake]
        rfl
      · simp [hdiv]
      · rw [List.getLast?_singleton, hdiv]
        simp
    · have hdbits : ∀ c ∈ l.drop 8, c = '0' ∨ c = '1' :=
        fun c hc => h c (List.mem_of_mem_drop hc)
      have hdlen : (l.drop 8).length = l.length - 8 := List.length_drop 8 l
      have hdlt : (l.drop 8).length < n := by
        omega
      have hdmod : (l.drop 8).length % 8 ≠ 0 := by
        rw [hdlen]
        omega
      obtain ⟨t, ht, htlen, htlast⟩ := ih _ hdlt (l.drop 8) rfl hdbits hdmod
      have htne2 : t ≠ [] := by
        intro h0
        rw [h0] at htlen
        simp at htlen
      refine ⟨bitsVal ((l.take 8).map (· == '1')) :: t, ?_, ?_, ?_⟩
      · rw [binary_to_text, if_neg (by simp [hemp]), intBase2_of_bits htne htbits,
          ht]
        rfl
      · simp only [List.length_cons, htlen, hdlen]
        omega
      · match t, htne2 with
        | x :: xs, _ =>
          rw [List.getLast?_cons_cons]
          rw [htlast]
          have hdd : (l.drop 8).drop (8 * ((l.drop 8).length / 8)) =
              l.drop (8 * (l.length / 8)) := by
            rw [List.drop_drop]
            congr 1
            rw [hdlen]
            omega
          rw [hdd]

/-! ### Helper lemmas on the circuit model -/

theorem mem_buildGates {bits : List Char} {i j : Nat} :
    j ∈ buildGates i bits ↔
      ∃ k, k < bits.length ∧ j = i + k ∧ bits.getD k '0' = '1' := by
  induction bits generalizing i with
  | nil => simp [buildGates]
  | cons c rest ih =>
    constructor
    · intro hmem
      rw [buildGates] at hmem
      by_cases hc : c = '1'
      · rw [if_pos hc] at hmem
        rcases List.mem_cons.mp hmem with rfl | hmem2
        · exact ⟨0, by simp, by simp, by simp [hc]⟩
        · obtain ⟨k, hk, rfl, hbit⟩ := ih.mp hmem2
          exact ⟨k + 1, by simpa using hk, by omega, by simpa using hbit⟩
      · rw [if_neg hc] at hmem
        obtain ⟨k, hk, rfl, hbit⟩ := ih.mp hmem
        exact ⟨k + 1, by simpa using hk, by omega, by simpa using hbit⟩
    · rintro ⟨k, hk, rfl, hbit⟩
      rw [buildGates]
      cases k with
      | zero =>
        simp only [List.getD_cons_zero] at hbit
        simp [hbit]
      | succ m =>
        have hmem : i + (m + 1) ∈ buildGates (i + 1) rest :=
          ih.mpr ⟨m, by simpa using hk, by omega, by simpa using hbit⟩
        by_cases hc : c = '1' <;>
          simp [hc, hmem]

theorem buildGates_pairwise (bits : List Char) (i : Nat) :
    (buildGates i bits).Pairwise (· < ·) := by
  induction bits generalizing i with
  | nil => simp [buildGates]
  | cons c rest ih =>
    rw [buildGates]
    have hge : ∀ j ∈ buildGates (i + 1) rest, i < j := by
      intro j hj
      obtain ⟨k, _, rfl, _⟩ := mem_buildGates.mp hj
      omega
    by_cases hc : c = '1'
    · rw [if_pos hc]
      exact List.Pairwise.cons hge (ih (i + 1))
    · rw [if_neg hc]
      exact ih (i + 1)

theorem buildGates_nodup (bits : List Char) (i : Nat) :
    (buildGates i bits).Nodup :=
  (buildGates_pairwise bits i).nodup

theorem length_applyX (st : List Bool) (i : Nat) :
    (applyX st i).length = st.length := by
  simp [applyX]

theorem length_foldl_applyX (gates : List Nat) (st : List Bool) :
    (gates.foldl applyX st).length = st.length := by
  induction gates generalizing st with
  | nil => rfl
  | cons g gs ih => simp [List.foldl_cons, ih, length_applyX]

theorem getD_applyX_self {st : List Bool} {g : Nat} (hg : g < st.length) :
    (applyX st g).getD g false = !(st.getD g false) := by
  unfold applyX
  rw [List.getD_eq_getElem _ _ (by simpa [List.length_set] using hg)]
  rw [List.getElem_set_self]

theorem getD_applyX_ne {st : List Bool} {g j : Nat} (hne : g ≠ j) :
    (applyX st g).getD j false = st.getD j false := by
  unfold applyX
  simp only [List.getD_eq_getElem?_getD, List.getElem?_set]
  rw [if_neg hne]

theorem getD_foldl_applyX {gates : List Nat} {st : List Bool}
    (hnd : gates.Nodup) (hrange : ∀ g ∈ gates, g < st.length) (j : Nat) :
    (gates.foldl applyX st).getD j false =
      xor (st.getD j false) (decide (j ∈ gates)) := by
  induction gates generalizing st with
  | nil => simp
  | cons g gs ih =>
    rw [List.foldl_cons]
    have hgnotin : g ∉ gs := (List.nodup_cons.mp hnd).1
    have hnd2 : gs.Nodup := (List.nodup_cons.mp hnd).2
    have hrange2 : ∀ x ∈ gs, x < (applyX st g).length := by
      intro x hx
      rw [length_applyX]
      exact hrange x (by simp [hx])
    rw [ih hnd2 hrange2]
    by_cases hj : j = g
    · subst hj
      rw [getD_applyX_self (hrange j (by simp))]
      simp [hgnotin]
    · rw [getD_applyX_ne (Ne.symm hj)]
      simp [List.mem_cons, hj]

theorem runCircuit_buildGates (bits : List Char) :
    runCircuit ⟨bits.length, buildGates 0 bits⟩ = bits.map (· == '1') := by
  unfold runCircuit
  apply List.ext_getElem
  · simp [length_foldl_applyX]
  · intro j h1 h2
    have hjlen : j < bits.length := by
      simpa [length_foldl_applyX] using h1
    have hrange : ∀ g ∈ buildGates 0 bits,
        g < (List.replicate bits.length false).length := by
      intro g hg
      obtain ⟨k, hk, rfl, _⟩ := mem_buildGates.mp hg
      simpa using hk
    have hD := getD_foldl_applyX (buildGates_nodup bits 0) hrange j
    have hmem : (j ∈ buildGates 0 bits) ↔ (bits.getD j '0' = '1') := by
      rw [mem_buildGates]
      constructor
      · rintro ⟨k, hk, hjk, hbit⟩
        have : j = k := by omega
        subst this
        exact hbit
      · intro hbit
        exact ⟨j, hjlen, by omega, hbit⟩
    rw [← List.getD_eq_getElem _ false h1, ← List.getD_eq_getElem _ false h2]
    rw [hD]
    have hrep : (List.replicate bits.length false).getD j false = false := by
      rw [List.getD_eq_getElem _ false (by simpa using hjlen)]
      simp
    have hR : (bits.map (· == '1')).getD j false = (bits.getD j '0' == '1') := by
      rw [List.getD_eq_getElem _ false h2, List.getElem_map,
        List.getD_eq_getElem _ '0' hjlen]
    rw [hrep, hR]
    by_cases hx : bits.getD j '0' = '1'
    · have hx2 : bits[j]?.getD '0' = '1' := by
        rw [← List.getD_eq_getElem?_getD]
        exact hx
      simp [hmem.mpr hx, hx2]
    · have hnot : j ∉ buildGates 0 bits := fun hc => hx (hmem.mp hc)
      have hx2 : ¬bits[j]?.getD '0' = '1' := by
        rw [← List.getD_eq_getElem?_getD]
        exact hx
      simp [hnot, hx2]

theorem process_chunk_fst (chunk : List Nat) :
    (process_chunk chunk).1 = text_to_binary chunk := by
  unfold process_chunk executeShot
  simp only [← List.map_reverse, List.reverse_reverse]
  rw [runCircuit_buildGates (text_to_binary chunk)]
  rw [List.map_map]
  exact map_bitChar_beq (fun c hc => text_to_binary_mem_bits hc)

theorem process_message_chunks_fst (message : List Nat) (chunk_size : Nat)
    (hcs : 1 ≤ chunk_size) :
    (process_message_chunks message chunk_size).1 = text_to_binary message := by
  suffices H : ∀ n (msg : List Nat), msg.length = n →
      (process_message_chunks msg chunk_size).1 = text_to_binary msg by
    exact H message.length message rfl
  intro n
  induction n using Nat.strong_induction_on with
  | _ n ih =>
    intro msg hn
    by_cases hemp : msg = []
    · subst hemp
      rw [process_message_chunks]
      simp [text_to_binary_nil]
    · rw [process_message_chunks]
      rw [dif_neg (by simp [hemp]; omega)]
      have hdlt : (msg.drop chunk_size).length < n := by
        simp only [List.length_drop]
        have : 0 < msg.length := List.length_pos.mpr hemp
        omega
      simp only [process_chunk_fst, ih _ hdlt (msg.drop chunk_size) rfl]
      rw [← text_to_binary_append, List.take_append_drop]

/-! ### Helper lemmas on the sort -/

theorem quantum_compare_gt (a b : Int) :
    quantum_compare a b = decide (a > b) := by
  unfold quantum_compare
  by_cases h : a > b
  · rw [if_pos h, decide_eq_true h]
    rfl
  · rw [if_neg h, decide_eq_false h]
    rfl

theorem cmpSwap_eq (l : List Int) (j : Nat) :
    cmpSwap l j =
      if l.getD j 0 > l.getD (j + 1) 0 then
        (l.set j (l.getD (j + 1) 0)).set (j + 1) (l.getD j 0)
      else l := by
  unfold cmpSwap
  rw [quantum_compare_gt]
  by_cases h : l.getD j 0 > l.getD (j + 1) 0 <;> simp [h]

theorem cmpSwap_cons (x : Int) (l : List Int) (j : Nat) :
    cmpSwap (x :: l) (j + 1) = x :: cmpSwap l j := by
  rw [cmpSwap_eq, cmpSwap_eq]
  simp only [List.getD_cons_succ, List.set_cons_succ]
  by_cases h : l.getD j 0 > l.getD (j + 1) 0
  · rw [if_pos h, if_pos h]
  · rw [if_neg h, if_neg h]

theorem bpassB_zero (l : List Int) : bpassB 0 l = l := by
  match l with
  | [] => rfl
  | [a] => rfl
  | a :: b :: t => rfl

theorem cmpSwap_zero (a b : Int) (t : List Int) :
    cmpSwap (a :: b :: t) 0 = if a > b then b :: a :: t else a :: b :: t := by
  rw [cmpSwap_eq]
  simp only [List.getD_cons_zero, List.getD_cons_succ, List.set_cons_zero,
    List.set_cons_succ]

theorem foldl_cmpSwap_shift (js : List Nat) (r : List Int) (x : Int) :
    js.foldl (fun acc j => cmpSwap acc (j + 1)) (x :: r) =
      x :: js.foldl cmpSwap r := by
  induction js generalizing r with
  | nil => rfl
  | cons j rest ih => simp [List.foldl_cons, cmpSwap_cons, ih]

theorem innerLoop_eq_bpassB (m : Nat) :
    ∀ l : List Int, m < l.length → (List.range m).foldl cmpSwap l = bpassB m l := by
  induction m with
  | zero =>
    intro l _
    rw [bpassB_zero]
    rfl
  | succ m ih =>
    intro l hm
    match l with
    | [] => simp at hm
    | [a] => simp at hm
    | a :: b :: t =>
      rw [List.range_succ_eq_map, List.foldl_cons, List.foldl_map, cmpSwap_zero]
      have hlt : m < (a :: t).length := by
        simp only [List.length_cons] at hm ⊢
        omega
      have hlt2 : m < (b :: t).length := by
        simp only [List.length_cons] at hm ⊢
        omega
      by_cases hab : a > b
      · rw [if_pos hab]
        simp only [Nat.succ_eq_add_one]
        rw [foldl_cmpSwap_shift (List.range m) (a :: t) b, ih (a :: t) hlt]
        simp [bpassB, hab]
      · rw [if_neg hab]
        simp only [Nat.succ_eq_add_one]
        rw [foldl_cmpSwap_shift (List.range m) (b :: t) a, ih (b :: t) hlt2]
        simp [bpassB, hab]

theorem bpassB_perm (m : Nat) : ∀ l : List Int, (bpassB m l).Perm l := by
  induction m with
  | zero =>
    intro l
    rw [bpassB_zero]
  | succ m ih =>
    intro l
    match l with
    | [] => exact List.Perm.refl []
    | [a] => exact List.Perm.refl [a]
    | a :: b :: t =>
      rw [bpassB]
      by_cases hab : a > b
      · rw [if_pos hab]
        exact (List.Perm.cons b (ih (a :: t))).trans (List.Perm.swap a b t)
      · rw [if_neg hab]
        exact List.Perm.cons a (ih (b :: t))

theorem bpassB_drop (m : Nat) :
    ∀ l : List Int, (bpassB m l).drop (m + 1) = l.drop (m + 1) := by
  induction m with
  | zero =>
    intro l
    rw [bpassB_zero]
  | succ m ih =>
    intro l
    match l with
    | [] => simp [bpassB]
    | [a] => simp [bpassB]
    | a :: b :: t =>
      rw [bpassB]
      by_cases hab : a > b
      · rw [if_pos hab]
        simp [List.drop_succ_cons, ih (a :: t)]
      · rw [if_neg hab]
        simp [List.drop_succ_cons, ih (b :: t)]

theorem bpassB_take_perm (m : Nat) (l : List Int) :
    ((bpassB m l).take (m + 1)).Perm (l.take (m + 1)) := by
  refine (List.perm_append_right_iff (l.drop (m + 1))).mp ?_
  have h1 : (bpassB m l).take (m + 1) ++ l.drop (m + 1) = bpassB m l := by
    rw [← bpassB_drop m l]
    exact List.take_append_drop _ _
  have h2 : l.take (m + 1) ++ l.drop (m + 1) = l := List.take_append_drop _ _
  rw [h1, h2]
  exact bpassB_perm m l

theorem bpassB_max (m : Nat) :
    ∀ l : List Int, m < l.length →
      ∀ x ∈ (bpassB m l).take (m + 1), x ≤ (bpassB m l).getD m 0 := by
  induction m with
  | zero =>
    intro l hm x hx
    rw [bpassB_zero] at hx ⊢
    match l, hm with
    | a :: t, _ =>
      simp only [List.take_succ_cons, List.take_zero] at hx
      simp only [List.mem_singleton] at hx
      subst hx
      rw [List.getD_cons_zero]
  | succ m ih =>
    intro l hm x hx
    match l with
    | [] => simp at hm
    | [a] => simp at hm
    | a :: b :: t =>
      have hlt : m < (a :: t).length := by
        simp only [List.length_cons] at hm ⊢
        omega
      have hlt2 : m < (b :: t).length := by
        simp only [List.length_cons] at hm ⊢
        omega
      rw [bpassB] at hx ⊢
      by_cases hab : a > b
      · rw [if_pos hab] at hx ⊢
        rw [List.getD_cons_succ]
        rw [List.take_succ_cons, List.mem_cons] at hx
        rcases hx with rfl | hx
        · have ha : a ∈ (bpassB m (a :: t)).take (m + 1) := by
            rw [(bpassB_take_perm m (a :: t)).mem_iff]
            simp [List.take_succ_cons]
          have := ih (a :: t) hlt a ha
          omega
        · exact ih (a :: t) hlt x hx
      · rw [if_neg hab] at hx ⊢
        rw [List.getD_cons_succ]
        rw [List.take_succ_cons, List.mem_cons] at hx
        rcases hx with rfl | hx
        · have hb : b ∈ (bpassB m (b :: t)).take (m + 1) := by
            rw [(bpassB_take_perm m (b :: t)).mem_iff]
            simp [List.take_succ_cons]
          have := ih (b :: t) hlt2 b hb
          omega
        · exact ih (b :: t) hlt2 x hx

theorem bubbleIter_zero (arr : List Int) : bubbleIter arr 0 = arr := rfl

theorem bubbleIter_succ (arr : List Int) (k : Nat) :
    bubbleIter arr (k + 1) =
      (List.range (arr.length - k - 1)).foldl cmpSwap (bubbleIter arr k) := by
  unfold bubbleIter
  rw [List.range_succ, List.foldl_append]
  rfl

theorem bubble_invariant (arr : List Int) (k : Nat) (hk : k ≤ arr.length) :
    (bubbleIter arr k).Perm arr ∧
      ((bubbleIter arr k).drop (arr.length - k)).Sorted (· ≤ ·) ∧
      ∀ x ∈ (bubbleIter arr k).take (arr.length - k),
        ∀ y ∈ (bubbleIter arr k).drop (arr.length - k), x ≤ y := by
  induction k with
  | zero =>
    rw [bubbleIter_zero]
    refine ⟨List.Perm.refl arr, ?_, ?_⟩
    · rw [Nat.sub_zero, List.drop_length]
      exact List.sorted_nil
    · intro x _ y hy
      rw [Nat.sub_zero, List.drop_length] at hy
      simp at hy
  | succ k ih =>
    have hk2 : k ≤ arr.length := Nat.le_of_succ_le hk
    obtain ⟨hperm, hsorted, hle⟩ := ih hk2
    have hn1 : 1 ≤ arr.length := le_trans (Nat.succ_le_succ (Nat.zero_le k)) hk
    have hlen : (bubbleIter arr k).length = arr.length := hperm.length_eq
    have hmlt : arr.length - k - 1 < (bubbleIter arr k).length := by
      rw [hlen]
      omega
    have hstep : bubbleIter arr (k + 1) =
        bpassB (arr.length - k - 1) (bubbleIter arr k) := by
      rw [bubbleIter_succ, innerLoop_eq_bpassB _ _ hmlt]
    have hmk : arr.length - k = (arr.length - k - 1) + 1 := by omega
    have hmk2 : arr.length - (k + 1) = arr.length - k - 1 := by omega
    set m := arr.length - k - 1 with hm
    set L := bubbleIter arr k with hL
    set P := bpassB m L with hP
    have hpermP : P.Perm L := bpassB_perm m L
    have hdrop : P.drop (m + 1) = L.drop (m + 1) := bpassB_drop m L
    have htp : (P.take (m + 1)).Perm (L.take (m + 1)) := bpassB_take_perm m L
    have hmax : ∀ x ∈ P.take (m + 1), x ≤ P.getD m 0 := bpassB_max m L hmlt
    have hmltP : m < P.length := by
      rw [hpermP.length_eq]
      exact hmlt
    have hpivot_mem : P.getD m 0 ∈ P.take (m + 1) := by
      rw [List.getD_eq_getElem _ _ hmltP]
      have hmt : m < (P.take (m + 1)).length := by
        rw [List.length_take]
        omega
      have he : (P.take (m + 1)).get ⟨m, hmt⟩ = P.get ⟨m, hmltP⟩ := by
        simp [List.getElem_take]
      have hmem := List.get_mem (P.take (m + 1)) m hmt
      rw [he] at hmem
      simpa using hmem
    have hpivot_le : ∀ y ∈ L.drop (m + 1), P.getD m 0 ≤ y := by
      intro y hy
      have hx : P.getD m 0 ∈ L.take (m + 1) := htp.mem_iff.mp hpivot_mem
      rw [← hmk] at hx hy
      exact hle _ hx y hy
    have hdropP : P.drop m = P.getD m 0 :: L.drop (m + 1) := by
      rw [List.drop_eq_getElem_cons hmltP, ← List.getD_eq_getElem _ 0 hmltP, hdrop]
    refine ⟨?_, ?_, ?_⟩
    · rw [hstep]
      exact hpermP.trans hperm
    · rw [hstep, hmk2, hdropP, List.sorted_cons]
      rw [hmk] at hsorted
      exact ⟨hpivot_le, hsorted⟩
    · intro x hx y hy
      rw [hstep, hmk2] at hx hy
      have hx2 : x ∈ P.take (m + 1) := by
        have hmin : P.take m = (P.take (m + 1)).take m := by
          rw [List.take_take]
          congr 1
          omega
        rw [hmin] at hx
        exact List.take_subset _ _ hx
      rw [hdropP, List.mem_cons] at hy
      rcases hy with rfl | hy
      · exact hmax x hx2
      · have hx3 : x ∈ L.take (m + 1) := htp.mem_iff.mp hx2
        rw [← hmk] at hx3 hy
        exact hle x hx3 y hy

/-! ### Claim theorems -/

/-- C1: for every message composed only of characters with code points
0-255 and every chunk size of at least 1, the encode-then-decode round
trip of quantum_text_encoding reproduces the message exactly. -/
theorem C1_round_trip (message : List Nat) (hA : ∀ c ∈ message, c < 256)
    (chunk_size : Nat) (hcs : 1 ≤ chunk_size) :
    quantum_text_encoding message chunk_size = some message := by
  unfold quantum_text_encoding
  rw [process_message_chunks_fst message chunk_size hcs, decode_encode hA]

/-- Witness for C1 at the message "Hi" with chunk size 2. -/
theorem C1_round_trip_witness :
    (∀ c ∈ [72, 105], c < 256) ∧ 1 ≤ 2 ∧
      quantum_text_encoding [72, 105] 2 = some [72, 105] :=
  ⟨by decide, by decide, C1_round_trip [72, 105] (by decide) 2 (by decide)⟩

/-- C2: quantum_compare deterministically returns the boolean value of
a > b; the single-shot measurement carries no randomness. -/
theorem C2_quantum_compare (a b : Int) : quantum_compare a b = decide (a > b) := by
  unfold quantum_compare
  by_cases h : a > b
  · rw [if_pos h, decide_eq_true h]
    rfl
  · rw [if_neg h, decide_eq_false h]
    rfl

/-- C3 counterexample: on the 7-bit string 0100000 the decoder does not
drop the trailing partial group and does not return the empty string:
it parses the 7 bits with int(byte, 2) = 32 and returns chr 32, the
one-character string of a space. -/
theorem C3_counterexample :
    binary_to_text ['0', '1', '0', '0', '0', '0', '0'] = some [32] ∧
      ([32] : List Nat) ≠ [] := by
  constructor
  · simp [binary_to_text, intBase2, binDigit]
  · decide

/-- C3 amended: for every bit string whose length is not a multiple of
8, binary_to_text parses the trailing partial group of fewer than 8
bits as a big-endian binary number and appends the corresponding
character instead of dropping it: the decoded text has one character
per group, the partial group included, and its last character is the
numeric value of the trailing group. -/
theorem C3_trailing_group (l : List Char) (hbits : ∀ c ∈ l, c = '0' ∨ c = '1')
    (hlen : l.length % 8 ≠ 0) :
    ∃ t, binary_to_text l = some t ∧ t.length = l.length / 8 + 1 ∧
      t.getLast? =
        some (bitsVal ((l.drop (8 * (l.length / 8))).map (· == '1'))) :=
  binary_to_text_last hbits hlen

/-- Witness for C3 at the 7-bit string 0100000, whose trailing (and
only) group has the numeric value 32. -/
theorem C3_trailing_group_witness :
    (∀ c ∈ ['0', '1', '0', '0', '0', '0', '0'], c = '0' ∨ c = '1') ∧
    ([ '0', '1', '0', '0', '0', '0', '0'].length % 8 ≠ 0) ∧
    (bitsVal (((['0', '1', '0', '0', '0', '0', '0'] : List Char).drop
        (8 * (['0', '1', '0', '0', '0', '0', '0'].length / 8))).map (· == '1'))
      = 32) ∧
    ∃ t, binary_to_text ['0', '1', '0', '0', '0', '0', '0'] = some t ∧
      t.length = ['0', '1', '0', '0', '0', '0', '0'].length / 8 + 1 ∧
      t.getLast? =
        some (bitsVal (((['0', '1', '0', '0', '0', '0', '0'] : List Char).drop
          (8 * (['0', '1', '0', '0', '0', '0', '0'].length / 8))).map (· == '1'))) :=
  ⟨by decide, by decide, by decide,
    C3_trailing_group ['0', '1', '0', '0', '0', '0', '0'] (by decide) (by decide)⟩

/-- C4 counterexample: on the single character with code point 256,
text_to_binary does not emit exactly 8 bits per character; it emits 9,
with no mod-256 truncation. -/
theorem C4_counterexample :
    (text_to_binary [256]).length ≠ 8 * ([256] : List Nat).length := by
  simp [text_to_binary, format08b, natBits, bitChar]

/-- C4 amended: text_to_binary emits exactly 8 big-endian bits per
character only for characters with code points 0-255; the output length
is 8 times the number of characters whenever every code point is below
256 (for higher code points the format emits all binary digits, more
than 8, rather than wrapping modulo 256). -/
theorem C4_eight_bits (text : List Nat) (h : ∀ c ∈ text, c < 256) :
    (text_to_binary text).length = 8 * text.length := by
  induction text with
  | nil => simp [text_to_binary_nil]
  | cons c rest ih =>
    have hc : c < 256 := h c (by simp)
    have hrest : ∀ x ∈ rest, x < 256 := fun x hx => h x (by simp [hx])
    rw [text_to_binary_cons]
    simp only [List.length_append, format08b_length hc, ih hrest,
      List.length_cons]
    ring

/-- Witness for C4 at the one-character message "A". -/
theorem C4_eight_bits_witness :
    (∀ c ∈ [65], c < 256) ∧
      (text_to_binary [65]).length = 8 * ([65] : List Nat).length :=
  ⟨by decide, C4_eight_bits [65] (by decide)⟩

/-- C5: for every non-empty message the concatenated bit string of the
chunked encoding with chunk size 1 equals the one with chunk size equal
to the message length; chunking affects only the grouping. -/
theorem C5_chunking_invariance (s : List Nat) (hne : s ≠ []) :
    (process_message_chunks s 1).1 = (process_message_chunks s s.length).1 := by
  have hlen : 1 ≤ s.length := List.length_pos.mpr hne
  rw [process_message_chunks_fst s 1 (by norm_num),
    process_message_chunks_fst s s.length hlen]

/-- Witness for C5 at the two-character message "Hi". -/
theorem C5_chunking_invariance_witness :
    ([72, 105] : List Nat) ≠ [] ∧
      (process_message_chunks [72, 105] 1).1 =
        (process_message_chunks [72, 105] [72, 105].length).1 :=
  ⟨by decide, C5_chunking_invariance [72, 105] (by decide)⟩

/-- C6: the per-chunk measurement is a no-op round trip at the bit
level: for every boolean flags vector the single-shot execution of the
prepared circuit returns the flags in reverse order, and process_chunk
reverses the measurement back, so its returned bits equal the chunk's
text_to_binary encoding unchanged. -/
theorem C6_measurement_roundtrip :
    (∀ f : List Bool,
      executeShot ⟨(f.map bitChar).length, buildGates 0 (f.map bitChar)⟩ =
        (f.map bitChar).reverse) ∧
    (∀ chunk : List Nat, (process_chunk chunk).1 = text_to_binary chunk) := by
  constructor
  · intro f
    unfold executeShot
    rw [runCircuit_buildGates (f.map bitChar), List.map_map]
    have hid : ((fun c => c == '1') ∘ bitChar) = id := by
      funext b
      cases b <;> rfl
    rw [hid, List.map_id, ← List.map_reverse]
  · exact process_chunk_fst

/-- C8 counterexample: binary_to_text does not degrade via truncation on
every out-of-domain input; on the non-binary string ab the underlying
int(byte, 2) parse fails (a ValueError in the source), modelled here as
none. -/
theorem C8_counterexample : binary_to_text ['a', 'b'] = none := by
  simp [binary_to_text, intBase2, binDigit]

/-- C8 amended: the codec is total over its accepted domain: for every
message, the bit string produced by text_to_binary is always decoded
successfully by binary_to_text, with no error; outside that domain a
non-binary character makes the decoder fail rather than truncate. -/
theorem C8_total (text : List Nat) :
    (binary_to_text (text_to_binary text)).isSome := by
  obtain ⟨t, ht, _⟩ :=
    binary_to_text_of_bits (fun c hc => @text_to_binary_mem_bits text c hc)
  simp [ht]

/-- C9: the round trip on the empty message returns the empty message,
and encoding the empty message processes zero chunks: an empty bit
string and an empty list of circuits. -/
theorem C9_empty (chunk_size : Nat) (hcs : 1 ≤ chunk_size) :
    quantum_text_encoding [] chunk_size = some [] ∧
      process_message_chunks [] chunk_size = ([], []) := by
  have hchunks : process_message_chunks [] chunk_size = ([], []) := by
    rw [process_message_chunks]
    simp
  exact ⟨by unfold quantum_text_encoding; rw [hchunks]; exact binary_to_text_nil,
    hchunks⟩

/-- Witness for C9 at the default chunk size 3. -/
theorem C9_empty_witness :
    1 ≤ 3 ∧ (quantum_text_encoding [] 3 = some [] ∧
      process_message_chunks [] 3 = ([], [])) :=
  ⟨by decide, C9_empty 3 (by decide)⟩

/-- C10: on the character A (code point 65) the two directions of the
codec are mutually inverse: text_to_binary gives 01000001 and
binary_to_text maps it back to A. -/
theorem C10_char_A :
    text_to_binary [65] = ['0', '1', '0', '0', '0', '0', '0', '1'] ∧
      binary_to_text ['0', '1', '0', '0', '0', '0', '0', '1'] = some [65] := by
  constructor
  · simp [text_to_binary, format08b, natBits, bitChar]
  · simp [binary_to_text, intBase2, binDigit]

/-- C7: quantum_bubble_sort returns a list sorted in non-decreasing
order that is a permutation of its input; the input list itself is never
mutated, since the source copies it before sorting (the embedding is
the pure function computed on that copy). -/
theorem C7_bubble_sort (arr : List Int) :
    (quantum_bubble_sort arr).Sorted (· ≤ ·) ∧
      (quantum_bubble_sort arr).Perm arr := by
  have heq : quantum_bubble_sort arr = bubbleIter arr arr.length := rfl
  obtain ⟨hperm, hsorted, _⟩ := bubble_invariant arr arr.length le_rfl
  rw [heq]
  constructor
  · simpa using hsorted
  · exact hperm

end QuantumRepo
